import Mathlib

/-!
# Verification of `context_practice/context_engine.py`

A shallow embedding of the document indexing / retrieval engine:
`tokenize`, `build_index`, `search` and `precision_at_k`, together with
proofs of the behavioural properties claimed for them.

Modelling conventions:
* Python `dict`s are modelled as association lists (`Dict α β`) with
  Python's update semantics: setting an existing key replaces its value in
  place, setting a fresh key appends it.  Dicts built by the code itself
  always have pairwise-distinct keys, mirroring real dicts.
* Python `int` is `Int`; `max_results` is an `Int` and list truncation
  `results[:max_results]` follows Python slice semantics (`pySliceTo`),
  including the negative case.
* String methods are modelled at the ASCII level exercised by the code's
  docstrings and tests: `str.lower` maps `A`–`Z` to `a`–`z`, and
  `str.isalnum` recognises ASCII letters and digits.
* A `KeyError` (the lookup `id2doc[doc_id]` on a missing id) is modelled
  by `Except`: `search` returns `Except Unit (List SearchResult)` where
  `.error ()` is the raised `KeyError`.
* The float score of a `SearchResult` is kept as the accumulated integer
  (CPython stores the `int` unchanged in the dataclass field);
  `precision_at_k`'s true division is modelled exactly in `ℚ`.
-/

/-- An association list modelling a Python `dict` (insertion ordered). -/
abbrev Dict (α β : Type) := List (α × β)

/-- Dict lookup `d[k]` returning `none` on a missing key (`k in d` / `d.get(k)`). -/
def dictGet? {α β : Type} [DecidableEq α] (d : Dict α β) (k : α) : Option β :=
  match d with
  | [] => none
  | (k', v) :: rest => if k = k' then some v else dictGet? rest k

/-- Dict assignment `d[k] = v`: replace the value of an existing key in place, or append a
new key at the end, exactly as a Python `dict` assignment does. -/
def dictSet {α β : Type} [DecidableEq α] (d : Dict α β) (k : α) (v : β) : Dict α β :=
  match d with
  | [] => [(k, v)]
  | (k', v') :: rest => if k = k' then (k, v) :: rest else (k', v') :: dictSet rest k v

instance {ε α : Type} [DecidableEq ε] [DecidableEq α] : DecidableEq (Except ε α) := fun x y =>
  match x, y with
  | .error e, .error e' => if h : e = e' then .isTrue (by rw [h]) else .isFalse (by simp [h])
  | .ok a, .ok a' => if h : a = a' then .isTrue (by rw [h]) else .isFalse (by simp [h])
  | .error _, .ok _ => .isFalse (by simp)
  | .ok _, .error _ => .isFalse (by simp)

/-- The `Document` dataclass. -/
structure Document where
  id : String
  title : String
  body : String
  tags : List String
  access_level : Int
deriving DecidableEq, Repr

/-- The `SearchResult` dataclass (score kept as the accumulated integer). -/
structure SearchResult where
  doc_id : String
  score : Int
deriving DecidableEq, Repr

/-- Model of CPython `str.lower` on an ASCII character: code points 65–90
(`A`–`Z`) shift by 32 to 97–122 (`a`–`z`); everything else is unchanged. -/
def pyLowerChar (c : Char) : Char :=
  if 65 ≤ c.toNat ∧ c.toNat ≤ 90 then Char.ofNat (c.toNat + 32) else c

/-- Model of CPython `str.isalnum` on an ASCII character: code points
65–90 (`A`–`Z`), 97–122 (`a`–`z`) and 48–57 (`0`–`9`). -/
def pyIsAlnum (c : Char) : Bool :=
  (65 ≤ c.toNat && c.toNat ≤ 90) || (97 ≤ c.toNat && c.toNat ≤ 122) ||
    (48 ≤ c.toNat && c.toNat ≤ 57)

/-- The per-character pass of `tokenize`: lowercase, then keep alphanumeric
characters and spaces, replacing everything else by a space. -/
def tokenizeChar (c : Char) : Char :=
  if pyIsAlnum (pyLowerChar c) || pyLowerChar c = ' ' then pyLowerChar c else ' '

/-- Model of `str.split()` on the cleaned character list: maximal runs of
non-space characters, empty tokens discarded.  `acc` holds the current
run in reverse. -/
def pyWords (cs : List Char) (acc : List Char) : List (List Char) :=
  match cs with
  | [] => if acc = [] then [] else [acc.reverse]
  | c :: rest =>
    if c = ' ' then
      if acc = [] then pyWords rest []
      else acc.reverse :: pyWords rest []
    else pyWords rest (c :: acc)

/-- Model of `tokenize(text)`: lowercase, replace non-alphanumerics by spaces,
split on whitespace, drop empty tokens. -/
def tokenize (text : String) : List String :=
  (pyWords (text.data.map tokenizeChar) []).map (fun w => String.mk w)

/-- Model of `collections.Counter(tokens)`: a dict from token to its count, in
first-occurrence order. -/
def counter (tokens : List String) : Dict String Int :=
  tokens.foldl (fun d t => dictSet d t ((dictGet? d t).getD 0 + 1)) []

/-- The inner loop of `build_index` for one document: for each
`(word, count)` item of the counter, `index[word][doc.id] = count`
(guarded by the code's `if count > 0`). -/
def indexDoc (index : Dict String (Dict String Int)) (docId : String)
    (items : Dict String Int) : Dict String (Dict String Int) :=
  match items with
  | [] => index
  | wc :: rest =>
    indexDoc
      (if 0 < wc.2 then
        dictSet index wc.1 (dictSet ((dictGet? index wc.1).getD []) docId wc.2)
      else index) docId rest

/-- Model of `build_index(documents)`: inverted index term -> \x7bdoc_id: frequency\x7d. -/
def build_index (documents : List Document) : Dict String (Dict String Int) :=
  documents.foldl (fun index doc =>
    indexDoc index doc.id (counter (tokenize (doc.title ++ " " ++ doc.body)))) []

/-- Truthiness of the optional `user_access_level`: `not user_access_level`
is true for `None` and for `0`. -/
def pyTruthyOptInt : Option Int → Bool
  | none => false
  | some n => n != 0

/-- The score-accumulation guard of `search`, exactly as the code branches:
`if not doc.access_level or not user_access_level: ... elif
doc.access_level <= user_access_level: ...`. -/
def addsScore (accessLevel : Int) (ual : Option Int) : Bool :=
  if accessLevel == 0 || !pyTruthyOptInt ual then true
  else
    match ual with
    | some l => accessLevel ≤ l
    | none => false

/-- The lookup `\x7bdoc.id: doc for doc in documents\x7d` built by `search`. -/
def mkId2doc (documents : List Document) : Dict String Document :=
  documents.foldl (fun d doc => dictSet d doc.id doc) []

/-- The inner loop of `search` over `index[token].items()`.  Each entry
looks up `id2doc[doc_id]` (a `KeyError`, i.e. `.error ()`, when absent)
and accumulates `scores[doc_id] += score` when the guard passes. -/
def scoreEntries (id2doc : Dict String Document) (ual : Option Int)
    (scores : Dict String Int) (entries : Dict String Int) :
    Except Unit (Dict String Int) :=
  match entries with
  | [] => .ok scores
  | (docId, freq) :: rest =>
    match dictGet? id2doc docId with
    | none => .error ()
    | some doc =>
      scoreEntries id2doc ual
        (if addsScore doc.access_level ual then
          dictSet scores docId ((dictGet? scores docId).getD 0 + freq)
        else scores) rest

/-- The outer loop of `search` over the query tokens: skip tokens absent
from the index, otherwise accumulate over `index[token].items()`. -/
def scoreTokens (index : Dict String (Dict String Int))
    (id2doc : Dict String Document) (ual : Option Int)
    (scores : Dict String Int) (tokens : List String) :
    Except Unit (Dict String Int) :=
  match tokens with
  | [] => .ok scores
  | t :: ts =>
    match dictGet? index t with
    | none => scoreTokens index id2doc ual scores ts
    | some entries =>
      match scoreEntries id2doc ual scores entries with
      | .error e => .error e
      | .ok scores' => scoreTokens index id2doc ual scores' ts

/-- The sort key `(-score, doc_id)` of `results.sort`, as the ordering it
induces on results: score descending, then `doc_id` ascending. -/
def resultRel (a b : SearchResult) : Prop :=
  b.score < a.score ∨ (a.score = b.score ∧ a.doc_id ≤ b.doc_id)

instance : DecidableRel resultRel := fun a b => by
  unfold resultRel; infer_instance

instance : IsTotal SearchResult resultRel where
  total a b := by
    unfold resultRel
    rcases lt_trichotomy a.score b.score with h | h | h
    · exact Or.inr (Or.inl h)
    · rcases le_total a.doc_id b.doc_id with h' | h'
      · exact Or.inl (Or.inr ⟨h, h'⟩)
      · exact Or.inr (Or.inr ⟨h.symm, h'⟩)
    · exact Or.inl (Or.inl h)

instance : IsTrans SearchResult resultRel where
  trans a b c hab hbc := by
    unfold resultRel at *
    rcases hab with h₁ | ⟨h₁, h₁'⟩ <;> rcases hbc with h₂ | ⟨h₂, h₂'⟩
    · exact Or.inl (h₂.trans h₁)
    · exact Or.inl (h₂ ▸ h₁)
    · exact Or.inl (h₁ ▸ h₂)
    · exact Or.inr ⟨h₁.trans h₂, h₁'.trans h₂'⟩

instance : IsAntisymm SearchResult resultRel where
  antisymm a b hab hba := by
    unfold resultRel at *
    rcases hab with h₁ | ⟨h₁, h₁'⟩ <;> rcases hba with h₂ | ⟨h₂, h₂'⟩
    · exact absurd (h₁.trans h₂) (lt_irrefl _)
    · exact absurd h₁ (h₂ ▸ lt_irrefl _)
    · exact absurd h₂ (h₁ ▸ lt_irrefl _)
    · obtain ⟨d₁, s₁⟩ := a
      obtain ⟨d₂, s₂⟩ := b
      simp only at h₁ h₁' h₂'
      rw [h₁, le_antisymm h₁' h₂']

/-- Python slice `l[:n]`, including the negative-`n` case. -/
def pySliceTo {α : Type} (l : List α) (n : Int) : List α :=
  if n < 0 then l.take (l.length + n).toNat else l.take n.toNat

/-- Model of `search(index, documents, query, max_results, user_access_level)`.
`.error ()` is the `KeyError` raised by `id2doc[doc_id]` on an id absent
from `documents`.  `results.sort` with key `(-x.score, x.doc_id)` is
modelled by `insertionSort resultRel`: the key order is a linear order on
`SearchResult` (total, transitive and antisymmetric, since the key
determines the whole record), so the sorted permutation is unique and any
sorting algorithm, Python's stable sort included, returns it. -/
def search (index : Dict String (Dict String Int)) (documents : List Document)
    (query : String) (max_results : Int := 5)
    (user_access_level : Option Int := none) :
    Except Unit (List SearchResult) :=
  match scoreTokens index (mkId2doc documents) user_access_level []
      (tokenize query) with
  | .error e => .error e
  | .ok scores =>
    .ok (pySliceTo
      (List.insertionSort resultRel (scores.map (fun p => SearchResult.mk p.1 p.2)))
      max_results)

/-- Model of `precision_at_k(gold_relevant, retrieved, k)`; the true division
`count / k` is modelled exactly in `ℚ`. -/
def precision_at_k (gold_relevant : List String) (retrieved : List SearchResult)
    (k : Int) : ℚ :=
  if k ≤ 0 then 0
  else
    (((pySliceTo retrieved k).filter (fun r => r.doc_id ∈ gold_relevant)).length : ℚ)
      / (k : ℚ)

/-- The tokenized `title + " " + body` text of a document. -/
def docTokens (doc : Document) : List String :=
  tokenize (doc.title ++ " " ++ doc.body)

/-- The term frequency of `w` in a document, as the code defines it. -/
def termFreq (doc : Document) (w : String) : Int :=
  ((docTokens doc).count w : Int)

/-- The invariant `build_index` maintains while folding over the documents:
every stored entry `(doc_id, f)` under a term `w` is justified by a
processed document with that id whose term frequency for `w` is exactly
`f ≥ 1`, and inner mappings are never empty. -/
def IndexInv (seen : List Document) (index : Dict String (Dict String Int)) : Prop :=
  ∀ w inner, dictGet? index w = some inner →
    inner ≠ [] ∧
    ∀ p ∈ inner, 1 ≤ p.2 ∧ ∃ doc ∈ seen, doc.id = p.1 ∧ p.2 = termFreq doc w

/-- A lowercase ASCII letter (code 97–122, `a`–`z`) or an ASCII digit
(code 48–57, `0`–`9`). -/
def isLowerAlnumChar (c : Char) : Prop :=
  (97 ≤ c.toNat ∧ c.toNat ≤ 122) ∨ (48 ≤ c.toNat ∧ c.toNat ≤ 57)

/-! ## Tokenizer docstring examples -/

example : tokenize "Hello, World! 123" = ["hello", "world", "123"] := by decide

example : tokenize "RAG: Retrieval-Augmented   Generation!!!" =
    ["rag", "retrieval", "augmented", "generation"] := by decide

/-! ## Association-list (`dict`) lemmas -/

section DictLemmas

variable {α β : Type} [DecidableEq α]

theorem dictGet?_dictSet (d : Dict α β) (k k' : α) (v : β) :
    dictGet? (dictSet d k v) k' = if k' = k then some v else dictGet? d k' := by
  induction d with
  | nil => simp [dictSet, dictGet?]
  | cons p rest ih =>
    obtain ⟨k₀, v₀⟩ := p
    by_cases hkk₀ : k = k₀
    · subst hkk₀
      by_cases hk' : k' = k <;> simp [dictSet, dictGet?, hk']
    · by_cases hk' : k' = k₀
      · subst hk'
        have : ¬k' = k := fun h => hkk₀ h.symm
        simp [dictSet, dictGet?, hkk₀, this]
      · simp [dictSet, dictGet?, hkk₀, hk', ih]

theorem mem_of_dictGet?_eq_some {d : Dict α β} {k : α} {v : β}
    (h : dictGet? d k = some v) : (k, v) ∈ d := by
  induction d with
  | nil => simp [dictGet?] at h
  | cons p rest ih =>
    obtain ⟨k₀, v₀⟩ := p
    by_cases hk : k = k₀
    · subst hk
      simp [dictGet?] at h
      simp [h]
    · simp [dictGet?, hk] at h
      simp [ih h]

theorem mem_map_fst_dictSet {d : Dict α β} {k a : α} {v : β} :
    a ∈ (dictSet d k v).map Prod.fst ↔ a ∈ d.map Prod.fst ∨ a = k := by
  induction d with
  | nil => simp [dictSet]
  | cons p rest ih =>
    obtain ⟨k₀, v₀⟩ := p
    by_cases hk : k = k₀
    · subst hk
      simp [dictSet]
      tauto
    · simp [dictSet, hk, ih]
      tauto

theorem nodup_keys_dictSet {d : Dict α β} {k : α} {v : β}
    (h : (d.map Prod.fst).Nodup) : ((dictSet d k v).map Prod.fst).Nodup := by
  induction d with
  | nil => simp [dictSet]
  | cons p rest ih =>
    obtain ⟨k₀, v₀⟩ := p
    rw [List.map_cons, List.nodup_cons] at h
    by_cases hk : k = k₀
    · subst hk
      rw [dictSet, if_pos rfl, List.map_cons, List.nodup_cons]
      exact h
    · rw [dictSet, if_neg hk, List.map_cons, List.nodup_cons]
      refine ⟨fun hmem => ?_, ih h.2⟩
      rcases mem_map_fst_dictSet.mp hmem with h' | h'
      · exact h.1 h'
      · exact hk h'.symm

theorem mem_dictSet_elim {d : Dict α β} {k : α} {v : β} {p : α × β}
    (h : p ∈ dictSet d k v) : p = (k, v) ∨ p ∈ d := by
  induction d with
  | nil => simpa [dictSet] using h
  | cons q rest ih =>
    obtain ⟨k₀, v₀⟩ := q
    by_cases hk : k = k₀
    · subst hk
      simp [dictSet] at h
      rcases h with h | h
      · exact Or.inl h
      · exact Or.inr (List.mem_cons_of_mem _ h)
    · simp only [dictSet, if_neg hk, List.mem_cons] at h
      rcases h with h | h
      · exact Or.inr (h ▸ List.mem_cons_self _ _)
      · rcases ih h with h' | h'
        · exact Or.inl h'
        · exact Or.inr (List.mem_cons_of_mem _ h')

theorem mem_dictSet_of_ne {d : Dict α β} {k : α} {v : β} {p : α × β}
    (h : p ∈ d) (hne : p.1 ≠ k) : p ∈ dictSet d k v := by
  induction d with
  | nil => simp at h
  | cons q rest ih =>
    obtain ⟨k₀, v₀⟩ := q
    rcases List.mem_cons.mp h with h' | h'
    · subst h'
      by_cases hk : k = k₀
      · exact absurd hk.symm hne
      · simp [dictSet, hk]
    · by_cases hk : k = k₀
      · subst hk
        rw [dictSet, if_pos rfl]
        exact List.mem_cons_of_mem _ h'
      · rw [dictSet, if_neg hk]
        exact List.mem_cons_of_mem _ (ih h')

theorem dictGet?_eq_some_of_mem {d : Dict α β} {k : α} {v : β}
    (hnd : (d.map Prod.fst).Nodup) (hm : (k, v) ∈ d) : dictGet? d k = some v := by
  induction d with
  | nil => simp at hm
  | cons q rest ih =>
    obtain ⟨k₀, v₀⟩ := q
    simp only [List.map_cons, List.nodup_cons] at hnd
    rcases List.mem_cons.mp hm with h | h
    · have h1 : k = k₀ := congrArg Prod.fst h
      have h2 : v = v₀ := congrArg Prod.snd h
      simp [dictGet?, h1, h2]
    · have hk : k ≠ k₀ := by
        rintro rfl
        exact hnd.1 (List.mem_map.mpr ⟨(k, v), h, rfl⟩)
      simp [dictGet?, hk, ih hnd.2 h]

end DictLemmas

/-! ## `Counter` lemmas -/

theorem counter_fold_get (tokens : List String) (d : Dict String Int) (t : String) :
    dictGet? (tokens.foldl (fun d t => dictSet d t ((dictGet? d t).getD 0 + 1)) d) t =
      if tokens.count t = 0 then dictGet? d t
      else some ((dictGet? d t).getD 0 + (tokens.count t : Int)) := by
  induction tokens generalizing d with
  | nil => simp
  | cons t₀ rest ih =>
    rw [List.foldl_cons, ih]
    by_cases ht : t = t₀
    · subst ht
      rw [List.count_cons_self, dictGet?_dictSet, if_pos rfl]
      have hne : ¬(rest.count t + 1 = 0) := Nat.succ_ne_zero _
      rw [if_neg hne]
      by_cases h0 : rest.count t = 0
      · simp [h0]
      · rw [if_neg h0]
        simp only [Option.getD_some]
        congr 1
        push_cast
        ring
    · rw [List.count_cons_of_ne ht, dictGet?_dictSet, if_neg ht]

theorem nodup_keys_counter (tokens : List String) :
    ((counter tokens).map Prod.fst).Nodup := by
  have main : ∀ d : Dict String Int, (d.map Prod.fst).Nodup →
      (((tokens.foldl (fun d t => dictSet d t ((dictGet? d t).getD 0 + 1)) d)).map
        Prod.fst).Nodup := by
    induction tokens with
    | nil => intro d h; exact h
    | cons t rest ih =>
      intro d h
      exact ih _ (nodup_keys_dictSet h)
  exact main [] (by simp)

theorem dictGet?_counter (tokens : List String) (t : String) :
    dictGet? (counter tokens) t =
      if tokens.count t = 0 then none else some ((tokens.count t : Int)) := by
  have h := counter_fold_get tokens [] t
  by_cases h0 : tokens.count t = 0 <;> simpa [counter, dictGet?, h0] using h

theorem mem_counter_iff (tokens : List String) (w : String) (c : Int) :
    (w, c) ∈ counter tokens ↔ tokens.count w ≠ 0 ∧ c = (tokens.count w : Int) := by
  constructor
  · intro hm
    have hg := dictGet?_eq_some_of_mem (nodup_keys_counter tokens) hm
    rw [dictGet?_counter] at hg
    by_cases h0 : tokens.count w = 0
    · rw [if_pos h0] at hg
      exact absurd hg (by simp)
    · rw [if_neg h0] at hg
      exact ⟨h0, (Option.some_inj.mp hg).symm⟩
  · rintro ⟨h0, rfl⟩
    apply mem_of_dictGet?_eq_some
    rw [dictGet?_counter, if_neg h0]

theorem counter_pos {tokens : List String} {p : String × Int}
    (hp : p ∈ counter tokens) : 0 < p.2 := by
  obtain ⟨w, c⟩ := p
  obtain ⟨h0, rfl⟩ := (mem_counter_iff tokens w c).mp hp
  have : (0 : Int) < (tokens.count w : Int) := by
    exact_mod_cast Nat.pos_of_ne_zero h0
  exact this

/-! ## `build_index` lemmas -/

theorem indexDoc_get_notmem (docId : String) (items : Dict String Int)
    (index : Dict String (Dict String Int)) (w : String)
    (hw : w ∉ items.map Prod.fst) :
    dictGet? (indexDoc index docId items) w = dictGet? index w := by
  induction items generalizing index with
  | nil => rfl
  | cons p rest ih =>
    obtain ⟨w₀, c₀⟩ := p
    simp only [List.map_cons, List.mem_cons] at hw
    push_neg at hw
    rw [indexDoc, ih _ hw.2]
    by_cases hc : 0 < c₀
    · rw [if_pos hc, dictGet?_dictSet, if_neg hw.1]
    · rw [if_neg hc]

theorem indexDoc_get (docId : String) (items : Dict String Int)
    (hnd : (items.map Prod.fst).Nodup)
    (index : Dict String (Dict String Int)) (w : String) :
    dictGet? (indexDoc index docId items) w =
      match dictGet? items w with
      | some c =>
        if 0 < c then some (dictSet ((dictGet? index w).getD []) docId c)
        else dictGet? index w
      | none => dictGet? index w := by
  induction items generalizing index with
  | nil => rfl
  | cons p rest ih =>
    obtain ⟨w₀, c₀⟩ := p
    rw [List.map_cons, List.nodup_cons] at hnd
    rw [indexDoc, ih hnd.2]
    by_cases hw : w = w₀
    · subst hw
      have hrest : dictGet? rest w = none := by
        cases hr : dictGet? rest w with
        | none => rfl
        | some c =>
          exact absurd (List.mem_map.mpr ⟨(w, c), mem_of_dictGet?_eq_some hr, rfl⟩)
            hnd.1
      rw [hrest, show dictGet? ((w, c₀) :: rest) w = some c₀ by simp [dictGet?]]
      by_cases hc : 0 < c₀
      · simp [hc, dictGet?_dictSet]
      · simp [hc]
    · rw [show dictGet? ((w₀, c₀) :: rest) w = dictGet? rest w by simp [dictGet?, hw]]
      by_cases hc : 0 < c₀
      · rw [if_pos hc]
        cases hr : dictGet? rest w with
        | none => simp [dictGet?_dictSet, hw]
        | some c => simp [dictGet?_dictSet, hw]
      · rw [if_neg hc]

theorem dictSet_ne_nil {α β : Type} [DecidableEq α] (d : Dict α β) (k : α) (v : β) :
    dictSet d k v ≠ [] := by
  cases d with
  | nil => simp [dictSet]
  | cons p rest =>
    obtain ⟨k₀, v₀⟩ := p
    by_cases hk : k = k₀ <;> simp [dictSet, hk]

theorem processDoc_get (index : Dict String (Dict String Int)) (doc : Document)
    (w : String) :
    dictGet? (indexDoc index doc.id (counter (docTokens doc))) w =
      if (docTokens doc).count w = 0 then dictGet? index w
      else some (dictSet ((dictGet? index w).getD []) doc.id (termFreq doc w)) := by
  rw [indexDoc_get doc.id _ (nodup_keys_counter _), dictGet?_counter]
  by_cases h0 : (docTokens doc).count w = 0
  · simp [h0]
  · rw [if_neg h0, if_neg h0]
    have hpos : (0 : Int) < ((docTokens doc).count w : Int) := by
      exact_mod_cast Nat.pos_of_ne_zero h0
    simp [hpos, termFreq]

theorem IndexInv.step {seen : List Document} {index : Dict String (Dict String Int)}
    (h : IndexInv seen index) (d : Document) :
    IndexInv (seen ++ [d]) (indexDoc index d.id (counter (docTokens d))) := by
  intro w inner hget
  rw [processDoc_get] at hget
  by_cases h0 : (docTokens d).count w = 0
  · rw [if_pos h0] at hget
    obtain ⟨hne, hall⟩ := h w inner hget
    refine ⟨hne, fun p hp => ?_⟩
    obtain ⟨h1, doc, hdoc, hid, hfreq⟩ := hall p hp
    exact ⟨h1, doc, List.mem_append_left _ hdoc, hid, hfreq⟩
  · rw [if_neg h0] at hget
    have hinner : inner = dictSet ((dictGet? index w).getD []) d.id (termFreq d w) :=
      (Option.some_inj.mp hget).symm
    subst hinner
    refine ⟨dictSet_ne_nil _ _ _, fun p hp => ?_⟩
    rcases mem_dictSet_elim hp with rfl | hp'
    · refine ⟨?_, d, List.mem_append_right _ (List.mem_singleton.mpr rfl), rfl, rfl⟩
      have : 1 ≤ ((docTokens d).count w : Int) := by
        exact_mod_cast Nat.one_le_iff_ne_zero.mpr h0
      simpa [termFreq] using this
    · cases hidx : dictGet? index w with
      | none =>
        rw [hidx] at hp'
        simp at hp'
      | some old =>
        rw [hidx] at hp'
        obtain ⟨hne, hall⟩ := h w old hidx
        obtain ⟨h1, doc, hdoc, hid, hfreq⟩ := hall p (by simpa using hp')
        exact ⟨h1, doc, List.mem_append_left _ hdoc, hid, hfreq⟩

theorem build_index_inv_aux (docs : List Document) :
    ∀ (seen : List Document) (index : Dict String (Dict String Int)),
      IndexInv seen index →
      IndexInv (seen ++ docs)
        (docs.foldl (fun index doc =>
          indexDoc index doc.id (counter (tokenize (doc.title ++ " " ++ doc.body))))
          index) := by
  induction docs with
  | nil => intro seen index h; simpa using h
  | cons d rest ih =>
    intro seen index h
    have h' : IndexInv (seen ++ [d])
        (indexDoc index d.id (counter (tokenize (d.title ++ " " ++ d.body)))) :=
      IndexInv.step h d
    have hmain := ih (seen ++ [d]) _ h'
    rw [List.foldl_cons]
    have : seen ++ d :: rest = (seen ++ [d]) ++ rest := by
      simp
    rw [this]
    exact hmain

theorem build_index_inv (docs : List Document) : IndexInv docs (build_index docs) := by
  have h := build_index_inv_aux docs [] []
    (fun w inner hg => by simp [dictGet?] at hg)
  simpa [build_index] using h

/-- C4. For every document collection with pairwise-distinct ids,
every stored `(term, doc_id)` entry of `build_index` has frequency equal
to the number of occurrences of that term in
`tokenize(title + " " + body)` of the document with that id; every stored
frequency is at least 1 and every term's inner mapping is non-empty. -/
theorem C4_build_index_term_frequencies (docs : List Document)
    (hids : (docs.map Document.id).Nodup) :
    ∀ term inner, dictGet? (build_index docs) term = some inner →
      inner ≠ [] ∧
      (∀ p ∈ inner, 1 ≤ p.2 ∧ ∃ doc ∈ docs, doc.id = p.1) ∧
      ∀ doc ∈ docs, ∀ f, dictGet? inner doc.id = some f →
        f = ((tokenize (doc.title ++ " " ++ doc.body)).count term : Int) := by
  intro term inner hget
  obtain ⟨hne, hall⟩ := build_index_inv docs term inner hget
  refine ⟨hne, fun p hp => ⟨(hall p hp).1, ?_⟩, ?_⟩
  · obtain ⟨_, doc, hdoc, hid, _⟩ := hall p hp
    exact ⟨doc, hdoc, hid⟩
  · intro doc hdoc f hf
    obtain ⟨h1, doc', hdoc', hid', hfreq⟩ :=
      hall (doc.id, f) (mem_of_dictGet?_eq_some hf)
    have heq : doc' = doc := List.inj_on_of_nodup_map hids hdoc' hdoc hid'
    subst heq
    simpa [termFreq, docTokens] using hfreq

/-- Witness for C4 at a concrete collection: the single document of the
docstring example, with distinct ids. -/
theorem C4_build_index_term_frequencies_witness :
    (([⟨"doc1", "RAG intro", "RAG connects LLMs", ["rag"], 0⟩] :
        List Document).map Document.id).Nodup ∧
    (∀ term inner,
      dictGet? (build_index
        [⟨"doc1", "RAG intro", "RAG connects LLMs", ["rag"], 0⟩]) term = some inner →
      inner ≠ [] ∧
      (∀ p ∈ inner, 1 ≤ p.2 ∧
        ∃ doc ∈ ([⟨"doc1", "RAG intro", "RAG connects LLMs", ["rag"], 0⟩] :
          List Document), doc.id = p.1) ∧
      ∀ doc ∈ ([⟨"doc1", "RAG intro", "RAG connects LLMs", ["rag"], 0⟩] :
          List Document), ∀ f, dictGet? inner doc.id = some f →
        f = ((tokenize (doc.title ++ " " ++ doc.body)).count term : Int)) :=
  ⟨by decide,
    C4_build_index_term_frequencies
      [⟨"doc1", "RAG intro", "RAG connects LLMs", ["rag"], 0⟩] (by decide)⟩

/-! ## `search` lemmas -/

theorem pySliceTo_sublist {α : Type} (l : List α) (n : Int) :
    List.Sublist (pySliceTo l n) l := by
  unfold pySliceTo
  split <;> exact List.take_sublist _ _

theorem search_eq_ok {index : Dict String (Dict String Int)}
    {docs : List Document} {query : String} {m : Int} {ual : Option Int}
    {res : List SearchResult}
    (h : search index docs query m ual = .ok res) :
    ∃ scores, scoreTokens index (mkId2doc docs) ual [] (tokenize query) = .ok scores ∧
      res = pySliceTo
        (List.insertionSort resultRel (scores.map fun p => SearchResult.mk p.1 p.2))
        m := by
  unfold search at h
  cases hs : scoreTokens index (mkId2doc docs) ual [] (tokenize query) with
  | error e => rw [hs] at h; cases h
  | ok scores =>
    rw [hs] at h
    exact ⟨scores, rfl, (Except.ok.inj h).symm⟩


theorem scoreEntries_nil {id2doc : Dict String Document} {ual : Option Int}
    {scores : Dict String Int} :
    scoreEntries id2doc ual scores [] = .ok scores := rfl

theorem scoreEntries_cons_none {id2doc : Dict String Document} {ual : Option Int}
    {scores : Dict String Int} {docId : String} {freq : Int}
    {rest : Dict String Int} (hd : dictGet? id2doc docId = none) :
    scoreEntries id2doc ual scores ((docId, freq) :: rest) = .error () := by
  rw [scoreEntries, hd]

theorem scoreEntries_cons_some {id2doc : Dict String Document} {ual : Option Int}
    {scores : Dict String Int} {docId : String} {freq : Int}
    {rest : Dict String Int} {doc : Document}
    (hd : dictGet? id2doc docId = some doc) :
    scoreEntries id2doc ual scores ((docId, freq) :: rest) =
      scoreEntries id2doc ual
        (if addsScore doc.access_level ual then
          dictSet scores docId ((dictGet? scores docId).getD 0 + freq)
        else scores) rest := by
  rw [scoreEntries, hd]

theorem scoreTokens_nil {index : Dict String (Dict String Int)}
    {id2doc : Dict String Document} {ual : Option Int} {scores : Dict String Int} :
    scoreTokens index id2doc ual scores [] = .ok scores := rfl

theorem scoreTokens_cons_none {index : Dict String (Dict String Int)}
    {id2doc : Dict String Document} {ual : Option Int} {scores : Dict String Int}
    {t : String} {ts : List String} (hidx : dictGet? index t = none) :
    scoreTokens index id2doc ual scores (t :: ts) =
      scoreTokens index id2doc ual scores ts := by
  rw [scoreTokens, hidx]

theorem scoreTokens_cons_error {index : Dict String (Dict String Int)}
    {id2doc : Dict String Document} {ual : Option Int} {scores : Dict String Int}
    {t : String} {ts : List String} {entries : Dict String Int} {e : Unit}
    (hidx : dictGet? index t = some entries)
    (he : scoreEntries id2doc ual scores entries = .error e) :
    scoreTokens index id2doc ual scores (t :: ts) = .error e := by
  rw [scoreTokens, hidx]
  show (match scoreEntries id2doc ual scores entries with
    | Except.error e => Except.error e
    | Except.ok scores' => scoreTokens index id2doc ual scores' ts) = Except.error e
  rw [he]

theorem scoreTokens_cons_ok {index : Dict String (Dict String Int)}
    {id2doc : Dict String Document} {ual : Option Int} {scores : Dict String Int}
    {t : String} {ts : List String} {entries mid : Dict String Int}
    (hidx : dictGet? index t = some entries)
    (he : scoreEntries id2doc ual scores entries = .ok mid) :
    scoreTokens index id2doc ual scores (t :: ts) =
      scoreTokens index id2doc ual mid ts := by
  rw [scoreTokens, hidx]
  show (match scoreEntries id2doc ual scores entries with
    | Except.error e => Except.error e
    | Except.ok scores' => scoreTokens index id2doc ual scores' ts) =
    scoreTokens index id2doc ual mid ts
  rw [he]

theorem scoreEntries_nodup {id2doc : Dict String Document} {ual : Option Int}
    {entries scores scores' : Dict String Int}
    (h : scoreEntries id2doc ual scores entries = .ok scores')
    (hnd : (scores.map Prod.fst).Nodup) : (scores'.map Prod.fst).Nodup := by
  induction entries generalizing scores with
  | nil =>
    rw [scoreEntries_nil] at h
    obtain rfl := Except.ok.inj h
    exact hnd
  | cons p rest ih =>
    obtain ⟨docId, freq⟩ := p
    cases hd : dictGet? id2doc docId with
    | none => rw [scoreEntries_cons_none hd] at h; cases h
    | some doc =>
      rw [scoreEntries_cons_some hd] at h
      by_cases hadd : addsScore doc.access_level ual = true
      · rw [if_pos hadd] at h
        exact ih h (nodup_keys_dictSet hnd)
      · rw [if_neg hadd] at h
        exact ih h hnd

theorem scoreTokens_nodup {index : Dict String (Dict String Int)}
    {id2doc : Dict String Document} {ual : Option Int}
    {scores scores' : Dict String Int} {tokens : List String}
    (h : scoreTokens index id2doc ual scores tokens = .ok scores')
    (hnd : (scores.map Prod.fst).Nodup) : (scores'.map Prod.fst).Nodup := by
  induction tokens generalizing scores with
  | nil =>
    rw [scoreTokens_nil] at h
    obtain rfl := Except.ok.inj h
    exact hnd
  | cons t ts ih =>
    cases hidx : dictGet? index t with
    | none =>
      rw [scoreTokens_cons_none hidx] at h
      exact ih h hnd
    | some entries =>
      cases he : scoreEntries id2doc ual scores entries with
      | error e =>
        rw [scoreTokens_cons_error hidx he] at h
        cases h
      | ok mid =>
        rw [scoreTokens_cons_ok hidx he] at h
        exact ih h (scoreEntries_nodup he hnd)

theorem scoreEntries_pos {id2doc : Dict String Document} {ual : Option Int}
    {entries scores scores' : Dict String Int}
    (h : scoreEntries id2doc ual scores entries = .ok scores')
    (hfreq : ∀ p ∈ entries, 1 ≤ p.2)
    (hpos : ∀ p ∈ scores, 1 ≤ p.2) : ∀ p ∈ scores', 1 ≤ p.2 := by
  induction entries generalizing scores with
  | nil =>
    rw [scoreEntries_nil] at h
    obtain rfl := Except.ok.inj h
    exact hpos
  | cons p rest ih =>
    obtain ⟨docId, freq⟩ := p
    cases hd : dictGet? id2doc docId with
    | none => rw [scoreEntries_cons_none hd] at h; cases h
    | some doc =>
      rw [scoreEntries_cons_some hd] at h
      have hfreq' : ∀ p ∈ rest, 1 ≤ p.2 := fun p hp =>
        hfreq p (List.mem_cons_of_mem _ hp)
      have hfreq1 : (1 : Int) ≤ freq := hfreq (docId, freq) (List.mem_cons_self _ _)
      by_cases hadd : addsScore doc.access_level ual = true
      · rw [if_pos hadd] at h
        refine ih h hfreq' (fun q hq => ?_)
        rcases mem_dictSet_elim hq with rfl | hq'
        · have hget : (0 : Int) ≤ (dictGet? scores docId).getD 0 := by
            cases hg : dictGet? scores docId with
            | none => simp
            | some v =>
              have hv := hpos (docId, v) (mem_of_dictGet?_eq_some hg)
              simp only [Option.getD_some]
              exact le_trans zero_le_one hv
          simpa using add_le_add hget hfreq1
        · exact hpos q hq'
      · rw [if_neg hadd] at h
        exact ih h hfreq' hpos

theorem scoreTokens_pos {index : Dict String (Dict String Int)}
    {id2doc : Dict String Document} {ual : Option Int}
    {scores scores' : Dict String Int} {tokens : List String}
    (h : scoreTokens index id2doc ual scores tokens = .ok scores')
    (hall : ∀ ti ∈ index, ∀ p ∈ ti.2, 1 ≤ p.2)
    (hpos : ∀ p ∈ scores, 1 ≤ p.2) : ∀ p ∈ scores', 1 ≤ p.2 := by
  induction tokens generalizing scores with
  | nil =>
    rw [scoreTokens_nil] at h
    obtain rfl := Except.ok.inj h
    exact hpos
  | cons t ts ih =>
    cases hidx : dictGet? index t with
    | none =>
      rw [scoreTokens_cons_none hidx] at h
      exact ih h hpos
    | some entries =>
      cases he : scoreEntries id2doc ual scores entries with
      | error e =>
        rw [scoreTokens_cons_error hidx he] at h
        cases h
      | ok mid =>
        rw [scoreTokens_cons_ok hidx he] at h
        have hfreq : ∀ p ∈ entries, 1 ≤ p.2 :=
          hall (t, entries) (mem_of_dictGet?_eq_some hidx)
        exact ih h (scoreEntries_pos he hfreq hpos)

theorem scoreEntries_ok {id2doc : Dict String Document} {ual : Option Int}
    {entries : Dict String Int}
    (hids : ∀ p ∈ entries, (dictGet? id2doc p.1).isSome) :
    ∀ scores, ∃ scores', scoreEntries id2doc ual scores entries = .ok scores' := by
  induction entries with
  | nil => exact fun scores => ⟨scores, rfl⟩
  | cons p rest ih =>
    intro scores
    obtain ⟨docId, freq⟩ := p
    have hd := hids (docId, freq) (List.mem_cons_self _ _)
    cases hg : dictGet? id2doc docId with
    | none => rw [hg] at hd; simp at hd
    | some doc =>
      obtain ⟨scores', hs⟩ := ih (fun p hp => hids p (List.mem_cons_of_mem _ hp)) _
      exact ⟨scores', by rw [scoreEntries_cons_some hg]; exact hs⟩

theorem scoreTokens_ok {index : Dict String (Dict String Int)}
    {id2doc : Dict String Document} {ual : Option Int} {tokens : List String}
    (hids : ∀ ti ∈ index, ∀ p ∈ ti.2, (dictGet? id2doc p.1).isSome) :
    ∀ scores, ∃ scores', scoreTokens index id2doc ual scores tokens = .ok scores' := by
  induction tokens with
  | nil => exact fun scores => ⟨scores, rfl⟩
  | cons t ts ih =>
    intro scores
    cases hidx : dictGet? index t with
    | none =>
      obtain ⟨scores', hs⟩ := ih scores
      exact ⟨scores', by rw [scoreTokens_cons_none hidx]; exact hs⟩
    | some entries =>
      obtain ⟨mid, hmid⟩ :=
        scoreEntries_ok (hids (t, entries) (mem_of_dictGet?_eq_some hidx)) scores
      obtain ⟨scores', hs⟩ := ih mid
      exact ⟨scores', by rw [scoreTokens_cons_ok hidx hmid]; exact hs⟩

theorem addsScore_zero (u : Option Int) : addsScore 0 u = true := by
  simp [addsScore]

theorem scoreEntries_ual_get {id2doc : Dict String Document} {id : String}
    {doc : Document} (hdoc : dictGet? id2doc id = some doc)
    (hacc : doc.access_level = 0) (ual₁ ual₂ : Option Int) :
    ∀ (entries scores₁ scores₂ : Dict String Int),
      dictGet? scores₁ id = dictGet? scores₂ id →
      (scoreEntries id2doc ual₁ scores₁ entries).toOption.map (fun s => dictGet? s id)
        = (scoreEntries id2doc ual₂ scores₂ entries).toOption.map
            (fun s => dictGet? s id) := by
  intro entries
  induction entries with
  | nil =>
    intro s₁ s₂ hg
    simp [scoreEntries_nil, Except.toOption, hg]
  | cons p rest ih =>
    intro s₁ s₂ hg
    obtain ⟨docId, freq⟩ := p
    cases hd : dictGet? id2doc docId with
    | none => rw [scoreEntries_cons_none hd, scoreEntries_cons_none hd]
    | some d =>
      rw [scoreEntries_cons_some hd, scoreEntries_cons_some hd]
      apply ih
      by_cases hid : docId = id
      · subst hid
        have hdd : d = doc := Option.some_inj.mp (hd.symm.trans hdoc)
        subst hdd
        rw [hacc, if_pos (addsScore_zero ual₁), if_pos (addsScore_zero ual₂),
          dictGet?_dictSet, if_pos rfl, dictGet?_dictSet, if_pos rfl, hg]
      · have hid' : ¬id = docId := fun h => hid h.symm
        have hside : ∀ (u : Option Int) (s : Dict String Int),
            dictGet? (if addsScore d.access_level u then
              dictSet s docId ((dictGet? s docId).getD 0 + freq) else s) id
              = dictGet? s id := by
          intro u s
          split
          · rw [dictGet?_dictSet, if_neg hid']
          · rfl
        rw [hside, hside, hg]

theorem scoreTokens_ual_get {index : Dict String (Dict String Int)}
    {id2doc : Dict String Document} {id : String} {doc : Document}
    (hdoc : dictGet? id2doc id = some doc)
    (hacc : doc.access_level = 0) (ual₁ ual₂ : Option Int) :
    ∀ (tokens : List String) (scores₁ scores₂ : Dict String Int),
      dictGet? scores₁ id = dictGet? scores₂ id →
      (scoreTokens index id2doc ual₁ scores₁ tokens).toOption.map
          (fun s => dictGet? s id)
        = (scoreTokens index id2doc ual₂ scores₂ tokens).toOption.map
            (fun s => dictGet? s id) := by
  intro tokens
  induction tokens with
  | nil =>
    intro s₁ s₂ hg
    simp [scoreTokens_nil, Except.toOption, hg]
  | cons t ts ih =>
    intro s₁ s₂ hg
    cases hidx : dictGet? index t with
    | none =>
      rw [scoreTokens_cons_none hidx, scoreTokens_cons_none hidx]
      exact ih _ _ hg
    | some entries =>
      have hent := scoreEntries_ual_get hdoc hacc ual₁ ual₂ entries s₁ s₂ hg
      cases he₁ : scoreEntries id2doc ual₁ s₁ entries with
      | error e =>
        cases he₂ : scoreEntries id2doc ual₂ s₂ entries with
        | error e' =>
          rw [scoreTokens_cons_error hidx he₁, scoreTokens_cons_error hidx he₂]
        | ok m₂ =>
          rw [he₁, he₂] at hent
          simp [Except.toOption] at hent
      | ok m₁ =>
        cases he₂ : scoreEntries id2doc ual₂ s₂ entries with
        | error e' =>
          rw [he₁, he₂] at hent
          simp [Except.toOption] at hent
        | ok m₂ =>
          rw [scoreTokens_cons_ok hidx he₁, scoreTokens_cons_ok hidx he₂]
          apply ih
          rw [he₁, he₂] at hent
          simpa [Except.toOption] using hent

/-! ## `tokenize` lemmas -/

theorem chr_toNat_ofNat {n : Nat} (h : n < 55296) : (Char.ofNat n).toNat = n := by
  simp [Char.ofNat, Char.toNat, Char.ofNatAux, Nat.isValidChar, h, UInt32.toNat,
    BitVec.toNat_ofNatLt]

theorem tokenizeChar_spec (c : Char) :
    tokenizeChar c = ' ' ∨ isLowerAlnumChar (tokenizeChar c) := by
  have key : ∀ c' : Char, pyIsAlnum c' = true →
      ¬(65 ≤ c'.toNat ∧ c'.toNat ≤ 90) → isLowerAlnumChar c' := by
    intro c' h hU
    simp only [pyIsAlnum, Bool.or_eq_true, Bool.and_eq_true, decide_eq_true_eq] at h
    rcases h with (h | h) | h
    · exact absurd h hU
    · exact Or.inl h
    · exact Or.inr h
  have hnotUpper : ¬(65 ≤ (pyLowerChar c).toNat ∧ (pyLowerChar c).toNat ≤ 90) := by
    unfold pyLowerChar
    by_cases hU : 65 ≤ c.toNat ∧ c.toNat ≤ 90
    · rw [if_pos hU, chr_toNat_ofNat (by omega)]
      omega
    · rw [if_neg hU]
      exact hU
  rw [tokenizeChar]
  by_cases hcond : (pyIsAlnum (pyLowerChar c) || decide (pyLowerChar c = ' ')) = true
  · rw [if_pos hcond]
    rcases Bool.or_eq_true _ _ |>.mp hcond with halnum | hsp
    · exact Or.inr (key _ halnum hnotUpper)
    · exact Or.inl (of_decide_eq_true hsp)
  · rw [if_neg hcond]
    exact Or.inl rfl

theorem pyWords_chars {P : Char → Prop} :
    ∀ (cs acc : List Char), (∀ c ∈ cs, c = ' ' ∨ P c) → (∀ c ∈ acc, P c) →
      ∀ w ∈ pyWords cs acc, w ≠ [] ∧ ∀ c ∈ w, P c := by
  intro cs
  induction cs with
  | nil =>
    intro acc hcs hacc w hw
    rw [pyWords] at hw
    by_cases ha : acc = []
    · rw [if_pos ha] at hw
      simp at hw
    · rw [if_neg ha] at hw
      rw [List.mem_singleton] at hw
      subst hw
      refine ⟨by simpa using ha, fun c hc => hacc c (List.mem_reverse.mp hc)⟩
  | cons c₀ rest ih =>
    intro acc hcs hacc w hw
    rw [pyWords] at hw
    have hcs' : ∀ c ∈ rest, c = ' ' ∨ P c := fun c hc =>
      hcs c (List.mem_cons_of_mem _ hc)
    by_cases hsp : c₀ = ' '
    · rw [if_pos hsp] at hw
      by_cases ha : acc = []
      · rw [if_pos ha] at hw
        exact ih [] hcs' (by simp) w hw
      · rw [if_neg ha] at hw
        rcases List.mem_cons.mp hw with rfl | hw'
        · exact ⟨by simpa using ha, fun c hc => hacc c (List.mem_reverse.mp hc)⟩
        · exact ih [] hcs' (by simp) w hw'
    · rw [if_neg hsp] at hw
      have hP : P c₀ := (hcs c₀ (List.mem_cons_self _ _)).resolve_left hsp
      refine ih (c₀ :: acc) hcs' (fun c hc => ?_) w hw
      rcases List.mem_cons.mp hc with rfl | hc'
      · exact hP
      · exact hacc c hc'

theorem tokenize_tokens_lower_alnum (text : String) :
    ∀ t ∈ tokenize text, t ≠ "" ∧ ∀ c ∈ t.data, isLowerAlnumChar c := by
  intro t ht
  rw [tokenize] at ht
  obtain ⟨w, hw, rfl⟩ := List.mem_map.mp ht
  have hcs : ∀ c ∈ text.data.map tokenizeChar, c = ' ' ∨ isLowerAlnumChar c := by
    intro c hc
    obtain ⟨c₀, _, rfl⟩ := List.mem_map.mp hc
    exact tokenizeChar_spec c₀
  obtain ⟨hne, hall⟩ := pyWords_chars (text.data.map tokenizeChar) [] hcs
    (by simp) w hw
  refine ⟨fun h => hne ?_, hall⟩
  have : (String.mk w).data = w := rfl
  rw [h] at this
  exact this.symm

/-! ## Claim theorems -/

/-- C1. The claim says: with a non-`None` `user_access_level` `L`
(including `L = 0`), every returned result's document has
`access_level ≤ L`.  The code instead treats `L = 0` like `None`
(`not user_access_level` is true for `0`), so with `L = 0` it returns a
document whose `access_level` is `1 > 0`, contradicting the claim and
the function's own docstring (step 4). -/
theorem C1_user_access_level_zero_not_enforced :
    search [("a", [("d1", (1 : Int))])] [⟨"d1", "", "", [], 1⟩] "a" 5 (some 0)
      = .ok [⟨"d1", 1⟩]
    ∧ ¬((1 : Int) ≤ 0) :=
  ⟨by decide, by decide⟩

/-- C2 (counterexample). The claim says `search` never raises when the
index holds a `doc_id` absent from `documents`; in fact the lookup
`id2doc[doc_id]` raises `KeyError` (modelled as `.error ()`). -/
theorem C2_counterexample_missing_id_raises :
    search [("a", [("dX", (1 : Int))])] [⟨"d1", "", "", [], 1⟩] "a" 5 none
      = .error () := by
  decide

/-- C2 (amended). Whenever every `doc_id` stored in the index is the id
of some document in `documents`, `search` completes and returns a
(possibly empty) result sequence; a matched entry whose `doc_id` is
absent instead raises `KeyError`. -/
theorem C2_amended_search_total_on_consistent_index :
    ∀ (index : Dict String (Dict String Int)) (docs : List Document)
      (query : String) (m : Int) (ual : Option Int),
      (∀ ti ∈ index, ∀ p ∈ ti.2, (dictGet? (mkId2doc docs) p.1).isSome) →
      ∃ res, search index docs query m ual = .ok res := by
  intro index docs query m ual hids
  obtain ⟨scores, hs⟩ := scoreTokens_ok hids []
  exact ⟨_, by unfold search; rw [hs]⟩

/-- Witness for the amended C2 at a concrete consistent index. -/
theorem C2_amended_witness :
    (∀ ti ∈ ([("a", [("d1", (1 : Int))])] : Dict String (Dict String Int)),
      ∀ p ∈ ti.2, (dictGet? (mkId2doc [⟨"d1", "", "", [], 0⟩]) p.1).isSome) ∧
    ∃ res, search [("a", [("d1", (1 : Int))])] [⟨"d1", "", "", [], 0⟩] "a" 5 none
      = .ok res :=
  ⟨by decide,
    C2_amended_search_total_on_consistent_index [("a", [("d1", 1)])]
      [⟨"d1", "", "", [], 0⟩] "a" 5 none (by decide)⟩

/-- C3 (counterexample). The claim says `max_results ≤ 0` always yields
an empty sequence; with `max_results = -1` and two scored documents the
Python slice `results[:-1]` keeps one result. -/
theorem C3_counterexample_negative_max_results :
    search [("a", [("d1", (1 : Int)), ("d2", 2)])]
        [⟨"d1", "", "", [], 0⟩, ⟨"d2", "", "", [], 0⟩] "a" (-1) none
      = .ok [⟨"d2", 2⟩]
    ∧ ((-1 : Int) ≤ 0 ∧ ([⟨"d2", (2 : Int)⟩] : List SearchResult) ≠ []) :=
  ⟨by decide, by decide⟩

/-- C3 (amended). With `max_results = 0`, `search` returns an empty
sequence whenever it returns normally (negative values follow Python
slice semantics instead and need not give an empty sequence). -/
theorem C3_amended_zero_max_results :
    ∀ (index : Dict String (Dict String Int)) (docs : List Document)
      (query : String) (ual : Option Int) (res : List SearchResult),
      search index docs query 0 ual = .ok res → res = [] := by
  intro index docs query ual res h
  obtain ⟨scores, hs, rfl⟩ := search_eq_ok h
  simp [pySliceTo]

/-- Witness for the amended C3 at a concrete input with a scored document. -/
theorem C3_amended_witness :
    search [("a", [("d1", (1 : Int))])] [⟨"d1", "", "", [], 0⟩] "a" 0 none
      = .ok []
    ∧ ([] : List SearchResult) = [] :=
  ⟨by decide,
    C3_amended_zero_max_results [("a", [("d1", 1)])] [⟨"d1", "", "", [], 0⟩]
      "a" none [] (by decide)⟩

/-- C5 (counterexample). The claim bounds the result length by
`max_results` for every `max_results`; with `max_results = -1` the result
has length `1 > -1`. -/
theorem C5_counterexample_negative_max_results :
    search [("a", [("d1", (1 : Int)), ("d2", 2)])]
        [⟨"d1", "", "", [], 0⟩, ⟨"d2", "", "", [], 0⟩] "a" (-1) none
      = .ok [⟨"d2", 2⟩]
    ∧ ¬((([⟨"d2", (2 : Int)⟩] : List SearchResult).length : Int) ≤ -1) :=
  ⟨by decide, by decide⟩

/-- C5 (amended). Every normally returned result sequence is sorted by
score descending with ties broken by `doc_id` ascending, and when
`max_results ≥ 0` its length is at most `max_results`. -/
theorem C5_search_sorted_and_bounded :
    ∀ (index : Dict String (Dict String Int)) (docs : List Document)
      (query : String) (m : Int) (ual : Option Int) (res : List SearchResult),
      search index docs query m ual = .ok res →
      res.Pairwise resultRel ∧ (0 ≤ m → (res.length : Int) ≤ m) := by
  intro index docs query m ual res h
  obtain ⟨scores, hs, rfl⟩ := search_eq_ok h
  constructor
  · have hsorted : (List.insertionSort resultRel
        (scores.map fun p => SearchResult.mk p.1 p.2)).Pairwise resultRel :=
      List.sorted_insertionSort resultRel _
    exact hsorted.sublist (pySliceTo_sublist _ _)
  · intro hm
    rw [pySliceTo, if_neg (not_lt.mpr hm), List.length_take]
    omega

/-- Witness for the amended C5 at a concrete input with two results. -/
theorem C5_witness :
    ([⟨"d2", (2 : Int)⟩, ⟨"d1", 1⟩] : List SearchResult).Pairwise resultRel
    ∧ ((0 : Int) ≤ 5 →
        ((([⟨"d2", (2 : Int)⟩, ⟨"d1", 1⟩] : List SearchResult).length : Int) ≤ 5)) :=
  C5_search_sorted_and_bounded [("a", [("d1", 1), ("d2", 2)])]
    [⟨"d1", "", "", [], 0⟩, ⟨"d2", "", "", [], 0⟩] "a" 5 none
    [⟨"d2", 2⟩, ⟨"d1", 1⟩] (by decide)

/-- C6. Every token of `tokenize` is non-empty and consists only of
lowercase ASCII letters and digits (punctuation and symbols never appear);
in particular `tokenize "Hello, World! 123" = ["hello", "world", "123"]`. -/
theorem C6_tokenize_lower_alnum_tokens :
    (∀ (text : String), ∀ t ∈ tokenize text,
      t ≠ "" ∧ ∀ c ∈ t.data, isLowerAlnumChar c)
    ∧ tokenize "Hello, World! 123" = ["hello", "world", "123"] :=
  ⟨tokenize_tokens_lower_alnum, by decide⟩

/-- C7. `precision_at_k` returns 0 for `k ≤ 0`, returns 0 on an empty
retrieved list, and otherwise returns the number of relevant entries among
the first `min(k, len(retrieved))` retrieved divided by `k` — the
denominator is always `k`. -/
theorem C7_precision_at_k_spec :
    ∀ (gold : List String) (retrieved : List SearchResult) (k : Int),
      (k ≤ 0 → precision_at_k gold retrieved k = 0) ∧
      (retrieved = [] → precision_at_k gold retrieved k = 0) ∧
      (0 < k → precision_at_k gold retrieved k =
        (((retrieved.take (min k.toNat retrieved.length)).filter
            (fun r => r.doc_id ∈ gold)).length : ℚ) / (k : ℚ)) := by
  intro gold retrieved k
  refine ⟨fun hk => ?_, fun hr => ?_, fun hk => ?_⟩
  · rw [precision_at_k, if_pos hk]
  · subst hr
    rw [precision_at_k]
    by_cases hk : k ≤ 0
    · rw [if_pos hk]
    · rw [if_neg hk]
      simp [pySliceTo]
  · rw [precision_at_k, if_neg (not_le.mpr hk)]
    have hslice : pySliceTo retrieved k = retrieved.take (min k.toNat retrieved.length) := by
      rw [pySliceTo, if_neg (not_lt.mpr (le_of_lt hk)), List.take_eq_take]
      omega
    rw [hslice]

/-- C8. A document with `access_level = 0` is never excluded on
access-control grounds: the accumulation guard passes for every
`user_access_level`, and the accumulated score entry of such a document is
the same under any `user_access_level` as under no restriction at all. -/
theorem C8_access_level_zero_never_restricted :
    ∀ (index : Dict String (Dict String Int)) (docs : List Document)
      (query : String) (ual : Option Int) (id : String) (doc : Document),
      dictGet? (mkId2doc docs) id = some doc →
      doc.access_level = 0 →
      addsScore doc.access_level ual = true ∧
      (scoreTokens index (mkId2doc docs) ual [] (tokenize query)).toOption.map
          (fun s => dictGet? s id)
        = (scoreTokens index (mkId2doc docs) none [] (tokenize query)).toOption.map
            (fun s => dictGet? s id) := by
  intro index docs query ual id doc hdoc hacc
  refine ⟨by rw [hacc]; exact addsScore_zero ual, ?_⟩
  exact scoreTokens_ual_get hdoc hacc ual none (tokenize query) [] [] rfl

/-- Witness for C8 at a concrete access-level-0 document under a strict
restriction. -/
theorem C8_witness :
    addsScore (Document.mk "d1" "" "" [] 0).access_level (some 7) = true ∧
    (scoreTokens [("a", [("d1", (1 : Int))])] (mkId2doc [⟨"d1", "", "", [], 0⟩])
        (some 7) [] (tokenize "a")).toOption.map (fun s => dictGet? s "d1")
      = (scoreTokens [("a", [("d1", (1 : Int))])] (mkId2doc [⟨"d1", "", "", [], 0⟩])
          none [] (tokenize "a")).toOption.map (fun s => dictGet? s "d1") :=
  C8_access_level_zero_never_restricted [("a", [("d1", 1)])]
    [⟨"d1", "", "", [], 0⟩] "a" (some 7) "d1" ⟨"d1", "", "", [], 0⟩
    (by decide) rfl

/-- C9 (counterexample). The claim says a zero-score document never
appears for every index; an index entry with stored frequency 0 produces
a returned result with score 0. -/
theorem C9_counterexample_zero_frequency :
    search [("a", [("d1", (0 : Int))])] [⟨"d1", "", "", [], 0⟩] "a" 5 none
      = .ok [⟨"d1", 0⟩]
    ∧ (SearchResult.mk "d1" 0).score = 0 :=
  ⟨by decide, rfl⟩

/-- C9 (amended). For every index whose stored frequencies are all
`≥ 1` (as `build_index` produces), every returned result has score `≥ 1`
— in particular no zero-score document ever appears. -/
theorem C9_amended_no_zero_scores_for_positive_index :
    ∀ (index : Dict String (Dict String Int)) (docs : List Document)
      (query : String) (m : Int) (ual : Option Int) (res : List SearchResult),
      (∀ ti ∈ index, ∀ p ∈ ti.2, 1 ≤ p.2) →
      search index docs query m ual = .ok res →
      ∀ r ∈ res, 1 ≤ r.score := by
  intro index docs query m ual res hall h r hr
  obtain ⟨scores, hs, rfl⟩ := search_eq_ok h
  have hpos := scoreTokens_pos hs hall (by simp)
  have hr₁ : r ∈ List.insertionSort resultRel
      (scores.map fun p => SearchResult.mk p.1 p.2) :=
    (pySliceTo_sublist _ _).subset hr
  have hr₂ : r ∈ scores.map fun p => SearchResult.mk p.1 p.2 :=
    (List.perm_insertionSort resultRel _).subset hr₁
  obtain ⟨p, hp, rfl⟩ := List.mem_map.mp hr₂
  exact hpos p hp

/-- Witness for the amended C9 at a concrete all-positive index. -/
theorem C9_amended_witness :
    (∀ ti ∈ ([("a", [("d1", (1 : Int))])] : Dict String (Dict String Int)),
      ∀ p ∈ ti.2, 1 ≤ p.2) ∧
    ∀ r ∈ ([⟨"d1", (1 : Int)⟩] : List SearchResult), 1 ≤ r.score :=
  ⟨by decide,
    C9_amended_no_zero_scores_for_positive_index [("a", [("d1", 1)])]
      [⟨"d1", "", "", [], 0⟩] "a" 5 none [⟨"d1", 1⟩] (by decide) (by decide)⟩

/-- C10. A normally returned result sequence never repeats a `doc_id`:
the scores dict has pairwise-distinct keys and sorting/truncation preserve
that. -/
theorem C10_search_no_duplicate_doc_ids :
    ∀ (index : Dict String (Dict String Int)) (docs : List Document)
      (query : String) (m : Int) (ual : Option Int) (res : List SearchResult),
      search index docs query m ual = .ok res →
      (res.map SearchResult.doc_id).Nodup := by
  intro index docs query m ual res h
  obtain ⟨scores, hs, rfl⟩ := search_eq_ok h
  have hnd : (scores.map Prod.fst).Nodup := scoreTokens_nodup hs (by simp)
  have hl : ((scores.map fun p => SearchResult.mk p.1 p.2).map
      SearchResult.doc_id).Nodup := by
    rw [List.map_map]
    exact hnd
  have hperm : List.Perm
      ((List.insertionSort resultRel
        (scores.map fun p => SearchResult.mk p.1 p.2)).map SearchResult.doc_id)
      ((scores.map fun p => SearchResult.mk p.1 p.2).map SearchResult.doc_id) :=
    (List.perm_insertionSort resultRel _).map _
  have hnd₂ : ((List.insertionSort resultRel
      (scores.map fun p => SearchResult.mk p.1 p.2)).map SearchResult.doc_id).Nodup :=
    hperm.nodup_iff.mpr hl
  exact hnd₂.sublist ((pySliceTo_sublist _ _).map SearchResult.doc_id)

/-- Witness for C10 at a concrete two-document search. -/
theorem C10_witness :
    (([⟨"d2", (2 : Int)⟩, ⟨"d1", 1⟩] : List SearchResult).map
      SearchResult.doc_id).Nodup :=
  C10_search_no_duplicate_doc_ids [("a", [("d1", 1), ("d2", 2)])]
    [⟨"d1", "", "", [], 0⟩, ⟨"d2", "", "", [], 0⟩] "a" 5 none
    [⟨"d2", 2⟩, ⟨"d1", 1⟩] (by decide)
